import Mathlib

/-!
Verification development for the whitebox-tools excerpt consisting of
`BreachSingleCellPits` (hydro_analysis/breach_pits.rs) and
`CostAllocation` (gis_analysis/cost_allocation.rs).

The raster cell values (Rust `f64`) are modelled as exact rationals; all
arithmetic appearing in the two tools (comparisons, midpoint `(z + zn) / 2`)
is exact on the inputs considered, so no rounding behaviour is load-bearing.
Machine-integer casts (`z as usize`) are modelled explicitly via integer
truncation of the rational.

Layout: every definition of the embedding comes first, then all lemmas and
claim theorems.
-/

namespace Wbt

/-- Grid of cells, modelling the `Raster` / `Array2D` collaborators: a
`rows x columns` extent, a `nodata` sentinel, and the cell data, indexed by
signed `(row, col)` coordinates.  The `data` function is only consulted
in bounds. -/
structure Grid (A : Type) where
  rows : Nat
  cols : Nat
  nodata : A
  data : Int → Int → A

/-- In-bounds predicate for signed grid coordinates. -/
def Grid.inB {A : Type} (g : Grid A) (r c : Int) : Prop :=
  0 ≤ r ∧ r < (g.rows : Int) ∧ 0 ≤ c ∧ c < (g.cols : Int)

instance {A : Type} (g : Grid A) (r c : Int) : Decidable (g.inB r c) := by
  unfold Grid.inB; infer_instance

/-- Modelled from the spec: the external GridIO adapter (the `Raster` /
`Array2D` indexers, not part of this excerpt) supplies bounds semantics in
which an out-of-range read yields the grid's nodata sentinel (spec section 6,
and section 8 "Boundary safety": only in-bounds, non-nodata neighbours
participate in comparisons). -/
def Grid.get {A : Type} (g : Grid A) (r c : Int) : A :=
  if g.inB r c then g.data r c else g.nodata

/-- Modelled from the spec: the GridIO adapter ignores out-of-range writes;
in-range writes replace exactly one cell. -/
def Grid.set {A : Type} (g : Grid A) (r c : Int) (v : A) : Grid A :=
  { g with data := fun a b => if a = r ∧ b = c ∧ g.inB r c then v else g.data a b }

/-- Convenience constructor building a rational grid from a row-major list of
rows. -/
def Grid.ofRows (nd : Rat) (rs : List (List Rat)) : Grid Rat :=
  { rows := rs.length
    cols := (rs.headD []).length
    nodata := nd
    data := fun r c => ((rs.getD r.toNat []).getD c.toNat nd) }

/-- Convenience constructor building an integer grid from a row-major list of
rows. -/
def Grid.ofRowsI (nd : Int) (rs : List (List Int)) : Grid Int :=
  { rows := rs.length
    cols := (rs.headD []).length
    nodata := nd
    data := fun r c => ((rs.getD r.toNat []).getD c.toNat nd) }

/-- Row-major enumeration of all in-bounds cells, mirroring
`for row in 0..rows { for col in 0..columns { ... } }`. -/
def cellList (rows cols : Nat) : List (Int × Int) :=
  (List.range rows).flatMap fun (r : Nat) =>
    (List.range cols).map fun (c : Nat) => ((r : Int), (c : Int))

/-! First-order (`dx`, `dy`) and second-order (`dx2`, `dy2`) neighbour offset
tables and the 16-to-8 `breachcell` table, exactly as declared in
`BreachSingleCellPits::run` (the same `d_x`/`d_y` tables are declared in
`CostAllocation::run`). -/

def dx (i : Nat) : Int := [1, 1, 1, 0, -1, -1, -1, 0].getD i 0

def dy (i : Nat) : Int := [-1, 0, 1, 1, 1, 0, -1, -1].getD i 0

def dx2 (i : Nat) : Int :=
  [2, 2, 2, 2, 2, 1, 0, -1, -2, -2, -2, -2, -2, -1, 0, 1].getD i 0

def dy2 (i : Nat) : Int :=
  [-2, -1, 0, 1, 2, 2, 2, 2, 2, 1, 0, -1, -2, -2, -2, -2].getD i 0

def breachcell (i : Nat) : Nat :=
  [0, 0, 1, 1, 2, 2, 3, 3, 4, 4, 5, 5, 6, 6, 7, 0].getD i 0

/-! Pit detection and breach repair, from `BreachSingleCellPits::run`. -/

/-- The pit test of `BreachSingleCellPits::run`: `flag` remains true exactly
when no first-order neighbour read yields a value that is strictly below the
cell's own elevation and differs from nodata. -/
def isPit (g : Grid Rat) (r c : Int) : Prop :=
  ∀ i ∈ List.range 8,
    ¬(g.get (r + dy i) (c + dx i) < g.get r c ∧
      g.get (r + dy i) (c + dx i) ≠ g.nodata)

instance (g : Grid Rat) (r c : Int) : Decidable (isPit g r c) := by
  unfold isPit; infer_instance

/-- Elevation of the second-order ring cell at ring position `i` relative to
the cell `(r, c)`. -/
def ringVal (g : Grid Rat) (r c : Int) (i : Nat) : Rat :=
  g.get (r + dy2 i) (c + dx2 i)

/-- Ring position `i` qualifies for pit `(r, c)` when its elevation is
strictly below the pit's and is not nodata (`zn < z && zn != nodata`). -/
def qualifies (g : Grid Rat) (r c : Int) (i : Nat) : Prop :=
  ringVal g r c i < g.get r c ∧ ringVal g r c i ≠ g.nodata

instance (g : Grid Rat) (r c : Int) (i : Nat) : Decidable (qualifies g r c i) := by
  unfold qualifies; infer_instance

/-- The first-order neighbour cell lowered when ring position `i` qualifies:
`(row + dy[breachcell[i]], col + dx[breachcell[i]])`. -/
def breachTarget (r c : Int) (i : Nat) : Int × Int :=
  (r + dy (breachcell i), c + dx (breachcell i))

/-- The inner `for i in 0..16` loop of the repair, folded over an explicit
index list: each qualifying ring position writes the midpoint elevation to
its breach target (there is no break, so later qualifying positions write
too). -/
def breachFold (g : Grid Rat) (r c : Int) (L : List Nat) (out : Grid Rat) :
    Grid Rat :=
  L.foldl
    (fun acc i =>
      if qualifies g r c i then
        acc.set (breachTarget r c i).1 (breachTarget r c i).2
          ((g.get r c + ringVal g r c i) / 2)
      else acc)
    out

/-- Processing of one cell of the scan: if the cell has valid elevation and
is a pit, run the 16-position ring scan; otherwise leave the output grid
untouched. -/
def breachStep (g : Grid Rat) (r c : Int) (out : Grid Rat) : Grid Rat :=
  if g.get r c ≠ g.nodata ∧ isPit g r c then
    breachFold g r c (List.range 16) out
  else out

/-- The whole `BreachSingleCellPits` scan: the output grid starts as a copy
of the input (`set_data_from_raster`), and every cell is visited in row-major
order; detection always reads the immutable input grid. -/
def wholeBreach (g : Grid Rat) : Grid Rat :=
  (cellList g.rows g.cols).foldl (fun out p => breachStep g p.1 p.2 out) g

/-- A cell `(a, b)` is a lowering (breach) target for input grid `g` when
some valid pit of the scan has a qualifying ring position whose breach
target is `(a, b)`. -/
def isTarget (g : Grid Rat) (a b : Int) : Prop :=
  ∃ p ∈ cellList g.rows g.cols,
    g.get p.1 p.2 ≠ g.nodata ∧ isPit g p.1 p.2 ∧
    ∃ i ∈ List.range 16, qualifies g p.1 p.2 i ∧ breachTarget p.1 p.2 i = (a, b)

instance (g : Grid Rat) (a b : Int) : Decidable (isTarget g a b) := by
  unfold isTarget; infer_instance

/-! Flow-direction decode and label propagation, from `CostAllocation::run`. -/

/-- Exact value of `f64::MIN`, the `low_value` unresolved sentinel with which
`CostAllocation` reinitializes the output grid; the literal equals
-(2 ^ 1024 - 2 ^ 971), see `low_value_eq_pow`. -/
def low_value : Rat := -179769313486231570814527423731704356798070567525844996598917476803157260780028538760589558632766878171540458953514382464234321326889464182768467546703537516986049910576551282076245490090389328944075868508455133942304583236903222948165808559332123348274797826204144723168738177180919299881250404026184124858368

/-- Rust float-to-usize cast `z as usize` on the values reaching it:
truncation toward zero (the code guards `z > 0.0`, and the saturating
behaviour of huge values is subsumed by the out-of-table check that follows). -/
def castUsize (z : Rat) : Nat := (Rat.floor z).toNat

/-- The 129-entry decode table `pntr_matches`: zero-initialized, with the 8
power-of-two codes mapped to neighbour-offset indices 0 through 7. -/
def pntr_matches (n : Nat) : Int :=
  if n = 1 then 0 else if n = 2 then 1 else if n = 4 then 2
  else if n = 8 then 3 else if n = 16 then 4 else if n = 32 then 5
  else if n = 64 then 6 else if n = 128 then 7 else 0

/-- The table lookup `pntr_matches[z as usize]`: `none` models the Rust
index-out-of-bounds panic that fires when the truncated code exceeds 128
(the table has indices 0..=128). -/
def pntrLookup (z : Rat) : Option Int :=
  if castUsize z ≤ 128 then some (pntr_matches (castUsize z)) else none

/-- Per-cell decode of a backlink value into the stored `flow_dir` entry:
a pointer-nodata cell keeps the `Array2D` initial value -2, positive codes go
through the lookup table, and every other code becomes -1 (the "undefined
direction" terminus). -/
def pntrDecode (pntrNodata z : Rat) : Option Int :=
  if z = pntrNodata then some (-2)
  else if 0 < z then pntrLookup z
  else some (-1)

/-- One cell of the initialization pass of `CostAllocation::run`: decode the
backlink value into `flow_dir` (or propagate output nodata for pointer-nodata
cells), then unconditionally overwrite the output with the source value when
it is positive and not source-nodata. -/
def initCell (pntr pourpts : Grid Rat) (fd : Grid Int) (out : Grid Rat)
    (r c : Int) : Option (Grid Int × Grid Rat) :=
  (if pntr.get r c ≠ pntr.nodata then
    (if 0 < pntr.get r c then
      (pntrLookup (pntr.get r c)).map fun d => (fd.set r c d, out)
    else some (fd.set r c (-1), out))
  else some (fd, out.set r c pourpts.nodata)).map
    fun st =>
      if pourpts.get r c ≠ pourpts.nodata ∧ 0 < pourpts.get r c then
        (st.1, st.2.set r c (pourpts.get r c))
      else st

/-- The initialization pass folded over a cell list, aborting (like the Rust
panic) as soon as one cell's decode indexes out of the table. -/
def initAux (pntr pourpts : Grid Rat) :
    List (Int × Int) → Grid Int × Grid Rat → Option (Grid Int × Grid Rat)
  | [], st => some st
  | p :: ps, st =>
    (initCell pntr pourpts st.1 st.2 p.1 p.2).bind (initAux pntr pourpts ps)

/-- Result of a discovery walk: it either stepped onto an already-resolved
cell (recording that cell's value), or hit a cell whose direction entry is
negative ("undefined"). -/
inductive WalkEnd
  | resolved (v : Rat)
  | undirected
deriving DecidableEq

/-- The `outlet_id` recorded for a finished discovery walk: the resolved
value in case (a); in case (b) the variable keeps its initialization, the
source grid's nodata. -/
def walkOutlet (nd : Rat) : WalkEnd → Rat
  | .resolved v => v
  | .undirected => nd

/-- The discovery walk (first `while !flag` loop): follow `flow_dir` until
either the stepped-onto cell is not `low_value` (case a) or the current
cell's direction is negative (case b).  Fuel models the unbounded loop;
`none` means the fuel ran out before the walk terminated. -/
def discovery (fd : Grid Int) (out : Grid Rat) : Nat → Int → Int → Option WalkEnd
  | 0, _, _ => none
  | fuel + 1, y, x =>
    if 0 ≤ fd.get y x then
      if out.get (y + dy (fd.get y x).toNat) (x + dx (fd.get y x).toNat) ≠ low_value then
        some (.resolved (out.get (y + dy (fd.get y x).toNat) (x + dx (fd.get y x).toNat)))
      else discovery fd out fuel (y + dy (fd.get y x).toNat) (x + dx (fd.get y x).toNat)
    else some .undirected

/-- The compression walk (second `while !flag` loop): re-walk the trail,
writing `outlet` to the cell reached by each step (the write at the end of
the loop body runs in the stop cases too). -/
def compression (fd : Grid Int) (outlet : Rat) :
    Nat → Grid Rat → Int → Int → Option (Grid Rat)
  | 0, _, _, _ => none
  | fuel + 1, out, y, x =>
    if 0 ≤ fd.get y x then
      if out.get (y + dy (fd.get y x).toNat) (x + dx (fd.get y x).toNat) ≠ low_value then
        some (out.set (y + dy (fd.get y x).toNat) (x + dx (fd.get y x).toNat) outlet)
      else
        compression fd outlet fuel
          (out.set (y + dy (fd.get y x).toNat) (x + dx (fd.get y x).toNat) outlet)
          (y + dy (fd.get y x).toNat) (x + dx (fd.get y x).toNat)
    else some (out.set y x outlet)

/-- Per-cell work of the propagation pass: cells not holding `low_value` are
skipped; otherwise run the discovery walk, store the outlet at the start
cell (`output[(y, x)] = outlet_id` before the second loop), and run the
compression walk. -/
def processCell (fd : Grid Int) (nd : Rat) (fuel : Nat) (out : Grid Rat)
    (y x : Int) : Option (Grid Rat) :=
  if out.get y x ≠ low_value then some out
  else
    (discovery fd out fuel y x).bind fun w =>
      compression fd (walkOutlet nd w) fuel (out.set y x (walkOutlet nd w)) y x

/-- The propagation pass folded over a cell list. -/
def passAux (fd : Grid Int) (nd : Rat) (fuel : Nat) :
    List (Int × Int) → Grid Rat → Option (Grid Rat)
  | [], out => some out
  | p :: ps, out => (processCell fd nd fuel out p.1 p.2).bind (passAux fd nd fuel ps)

/-- The full propagation pass over all cells in row-major order. -/
def propagationPass (fd : Grid Int) (nd : Rat) (fuel : Nat) (out : Grid Rat) :
    Option (Grid Rat) :=
  passAux fd nd fuel (cellList out.rows out.cols) out

/-- The whole `CostAllocation` computation: dimension check, `flow_dir`
created with initial and nodata value -2, output reinitialized to
`low_value`, then the initialization pass and the propagation pass. -/
def fullRun (pntr pourpts : Grid Rat) (fuel : Nat) : Option (Grid Rat) :=
  if pntr.rows = pourpts.rows ∧ pntr.cols = pourpts.cols then
    (initAux pntr pourpts (cellList pntr.rows pntr.cols)
        ({ rows := pntr.rows, cols := pntr.cols, nodata := -2, data := fun _ _ => -2 },
         { rows := pntr.rows, cols := pntr.cols, nodata := pourpts.nodata,
           data := fun _ _ => low_value })).bind
      fun st => passAux st.1 pourpts.nodata fuel (cellList pntr.rows pntr.cols) st.2
  else none

/-- Decidable statement that the decoded pointer path starting at `(y, x)`
stays in bounds and reaches, within the given number of steps, either a cell
already resolved in the label grid or a cell whose direction entry decodes
as undefined. -/
def pathReachesB (fd : Grid Int) (out : Grid Rat) : Nat → Int → Int → Bool
  | 0, y, x =>
    decide (out.inB y x) &&
    (if 0 ≤ fd.get y x then
      decide (out.get (y + dy (fd.get y x).toNat) (x + dx (fd.get y x).toNat) ≠ low_value)
    else true)
  | n + 1, y, x =>
    decide (out.inB y x) &&
    (if 0 ≤ fd.get y x then
      (decide (out.get (y + dy (fd.get y x).toNat) (x + dx (fd.get y x).toNat) ≠ low_value) ||
        pathReachesB fd out n (y + dy (fd.get y x).toNat) (x + dx (fd.get y x).toNat))
    else true)

/-! Concrete grids used by the counterexamples and witnesses. -/

/-- Flat 5x5 plateau of 10 with a pit of 1 in the centre and a value-0 cell
at the second-order ring position straight above the centre (C5's input). -/
def g5 : Grid Rat := Grid.ofRows (-999)
  [[10, 10, 0, 10, 10],
   [10, 10, 10, 10, 10],
   [10, 10, 1, 10, 10],
   [10, 10, 10, 10, 10],
   [10, 10, 10, 10, 10]]

/-- The grid actually produced by the scan on `g5`: the plateau cells with no
strictly lower neighbour also count as pits and are repaired toward the two
low cells. -/
def g5out : Grid Rat := Grid.ofRows (-999)
  [[10, 5, 0, 5, 10],
   [10, 5, 1/2, 5, 10],
   [10, 11/2, 1, 11/2, 10],
   [10, 11/2, 11/2, 11/2, 10],
   [10, 10, 10, 10, 10]]

/-- A pit at the centre with two qualifying ring cells (ring positions 0 and
2) whose breach targets are two different first-order neighbours. -/
def gC1 : Grid Rat := Grid.ofRows (-999)
  [[10, 10, 10, 10, 0],
   [10, 10, 10, 10, 10],
   [10, 10, 1, 10, 0],
   [10, 10, 10, 10, 10],
   [10, 10, 10, 10, 10]]

/-- Corner-pit grid: the corner cell's in-bounds neighbours are all higher. -/
def gC6 : Grid Rat := Grid.ofRows (-999) [[5, 10], [10, 10]]

/-- One flat valid cell: it is a pit, but no ring cell qualifies, so the scan
selects no lowering target at all. -/
def gFlat1 : Grid Rat := Grid.ofRows (-999) [[10]]

/-- Backlink grid whose single cell decodes to "undefined" (value -1, with
pointer nodata -999). -/
def pntrC3 : Grid Rat := Grid.ofRows (-999) [[-1]]

/-- Source grid whose single cell is 0 (not a source) with nodata -32768. -/
def ppC3 : Grid Rat := Grid.ofRows (-32768) [[0]]

/-- Backlink grid holding its own nodata sentinel at its single cell. -/
def pntrC4 : Grid Rat := Grid.ofRows (-999) [[-999]]

/-- Source grid holding the positive label 7 at its single cell. -/
def ppC4 : Grid Rat := Grid.ofRows (-32768) [[7]]

/-- Flow-direction grid with a single undefined cell, as `CostAllocation`
builds for a backlink of -1. -/
def fdW8 : Grid Int := Grid.ofRowsI (-2) [[-1]]

/-- Label grid with a single unresolved cell. -/
def outW8 : Grid Rat :=
  { rows := 1, cols := 1, nodata := -32768, data := fun _ _ => low_value }

/-- Flow-direction grid for a 1x2 extent: cell (0,0) points east (offset
index 1), cell (0,1) is undefined. -/
def fdW9 : Grid Int := Grid.ofRowsI (-2) [[1, -1]]

/-- Label grid for the 1x2 extent: cell (0,0) unresolved, cell (0,1)
resolved to 5. -/
def outW9 : Grid Rat :=
  { rows := 1, cols := 2, nodata := -32768,
    data := fun _ c => if c = 1 then 5 else low_value }

/-- Result grid of the first propagation pass on the witness grids. -/
def outW8r : Grid Rat := (propagationPass fdW8 (-32768) 1 outW8).getD outW8

/-- Result grid of one per-cell processing on the witness grids. -/
def outC3r : Grid Rat := (processCell fdW8 (-32768) 2 outW8 0 0).getD outW8

/-- Result grid of the full run on the C4 grids. -/
def outC4r : Grid Rat := (fullRun pntrC4 ppC4 1).getD outW8

/-! Lemmas about the grid operations. -/

theorem Grid.rows_set {A : Type} (g : Grid A) (r c : Int) (v : A) :
    (g.set r c v).rows = g.rows := rfl

theorem Grid.cols_set {A : Type} (g : Grid A) (r c : Int) (v : A) :
    (g.set r c v).cols = g.cols := rfl

theorem Grid.nodata_set {A : Type} (g : Grid A) (r c : Int) (v : A) :
    (g.set r c v).nodata = g.nodata := rfl

theorem Grid.inB_set {A : Type} (g : Grid A) (r c a b : Int) (v : A) :
    (g.set r c v).inB a b ↔ g.inB a b := Iff.rfl

/-- Reading after writing: the written cell returns the new value when the
write was in bounds; every other read is unchanged. -/
theorem Grid.get_set {A : Type} (g : Grid A) (r c a b : Int) (v : A) :
    (g.set r c v).get a b =
      if a = r ∧ b = c ∧ g.inB r c then v else g.get a b := by
  show (if Grid.inB g a b then
      (if a = r ∧ b = c ∧ g.inB r c then v else g.data a b) else g.nodata) = _
  unfold Grid.get
  by_cases hab : a = r ∧ b = c ∧ g.inB r c
  · obtain ⟨h1, h2, h3⟩ := hab
    subst h1; subst h2
    simp [h3]
  · rw [if_neg hab, if_neg hab]

theorem Grid.get_set_ne {A : Type} (g : Grid A) (r c a b : Int) (v : A)
    (h : ¬(a = r ∧ b = c)) : (g.set r c v).get a b = g.get a b := by
  rw [Grid.get_set]; simp_all

theorem Grid.get_set_self {A : Type} (g : Grid A) (r c : Int) (v : A)
    (h : g.inB r c) : (g.set r c v).get r c = v := by
  rw [Grid.get_set]; simp_all

theorem Grid.get_of_not_inB {A : Type} (g : Grid A) (r c : Int)
    (h : ¬ g.inB r c) : g.get r c = g.nodata := by
  unfold Grid.get; simp [h]

theorem mem_cellList {rows cols : Nat} {p : Int × Int} :
    p ∈ cellList rows cols ↔
      0 ≤ p.1 ∧ p.1 < (rows : Int) ∧ 0 ≤ p.2 ∧ p.2 < (cols : Int) := by
  constructor
  · intro h
    rw [cellList, List.mem_flatMap] at h
    obtain ⟨r, hr, hmem⟩ := h
    rw [List.mem_map] at hmem
    obtain ⟨c, hc, hp⟩ := hmem
    rw [List.mem_range] at hr hc
    subst hp
    show 0 ≤ (r : Int) ∧ (r : Int) < (rows : Int) ∧
      0 ≤ (c : Int) ∧ (c : Int) < (cols : Int)
    exact ⟨Int.natCast_nonneg r, by exact_mod_cast hr,
      Int.natCast_nonneg c, by exact_mod_cast hc⟩
  · intro ⟨h1, h2, h3, h4⟩
    rw [cellList, List.mem_flatMap]
    refine ⟨p.1.toNat, ?_, ?_⟩
    · rw [List.mem_range]; omega
    · rw [List.mem_map]
      refine ⟨p.2.toNat, ?_, ?_⟩
      · rw [List.mem_range]; omega
      · rw [Int.toNat_of_nonneg h3]
        show ((p.1.toNat : Int), p.2) = p
        rw [Int.toNat_of_nonneg h1]

/-! Lemmas about the breach repair fold. -/

/-- When no index of `L` both qualifies and targets `(a, b)`, the fold leaves
the value at `(a, b)` unchanged. -/
theorem breachFold_get_of_none (g : Grid Rat) (r c a b : Int) (L : List Nat)
    (out : Grid Rat)
    (h : ∀ i ∈ L, ¬(qualifies g r c i ∧ breachTarget r c i = (a, b))) :
    (breachFold g r c L out).get a b = out.get a b := by
  induction L generalizing out with
  | nil => rfl
  | cons i L ih =>
    simp only [breachFold, List.foldl_cons] at ih ⊢
    by_cases hq : qualifies g r c i
    · rw [if_pos hq]
      rw [ih _ fun j hj => h j (List.mem_cons_of_mem i hj)]
      apply Grid.get_set_ne
      intro ⟨e1, e2⟩
      exact h i (List.mem_cons_self i L)
        ⟨hq, by rw [Prod.ext_iff]; exact ⟨e1.symm, e2.symm⟩⟩
    · rw [if_neg hq]
      exact ih _ fun j hj => h j (List.mem_cons_of_mem i hj)

/-- Value at `(a, b)` after the fold: the last index of `L` that qualifies
and targets `(a, b)` determines it (the fold has no break, so later
qualifying writes to the same cell win); if there is none, the value is
unchanged. -/
theorem breachFold_get (g : Grid Rat) (r c a b : Int) (L : List Nat)
    (out : Grid Rat) (hin : out.inB a b) :
    (breachFold g r c L out).get a b =
      match (L.filter fun i =>
          decide (qualifies g r c i ∧ breachTarget r c i = (a, b))).getLast? with
      | some i => (g.get r c + ringVal g r c i) / 2
      | none => out.get a b := by
  induction L generalizing out with
  | nil => rfl
  | cons i L ih =>
    simp only [breachFold, List.foldl_cons] at ih ⊢
    simp only [List.filter_cons, decide_eq_true_eq]
    by_cases hq : qualifies g r c i
    · by_cases ht : breachTarget r c i = (a, b)
      · rw [if_pos hq, if_pos ⟨hq, ht⟩]
        rw [ih (out.set (breachTarget r c i).1 (breachTarget r c i).2
          ((g.get r c + ringVal g r c i) / 2)) hin]
        cases hfl : (L.filter fun j =>
            decide (qualifies g r c j ∧ breachTarget r c j = (a, b))) with
        | nil =>
          simp only [List.getLast?_nil, List.getLast?_singleton]
          rw [Grid.get_set]
          have hc : a = (breachTarget r c i).1 ∧ b = (breachTarget r c i).2 ∧
              out.inB (breachTarget r c i).1 (breachTarget r c i).2 := by
            rw [ht]; exact ⟨rfl, rfl, hin⟩
          rw [if_pos hc]
        | cons j js =>
          rw [List.getLast?_cons_cons]
          cases hgl : (j :: js).getLast? with
          | none =>
            rw [List.getLast?_eq_none_iff] at hgl
            exact absurd hgl (List.cons_ne_nil j js)
          | some k => rfl
      · rw [if_pos hq, if_neg (fun hh => ht hh.2)]
        rw [ih (out.set (breachTarget r c i).1 (breachTarget r c i).2
          ((g.get r c + ringVal g r c i) / 2)) hin]
        cases hfl : (L.filter fun j =>
            decide (qualifies g r c j ∧ breachTarget r c j = (a, b))) with
        | nil =>
          simp only [List.getLast?_nil]
          apply Grid.get_set_ne
          intro ⟨e1, e2⟩
          exact ht (by rw [Prod.ext_iff]; exact ⟨e1.symm, e2.symm⟩)
        | cons j js =>
          cases hgl : (j :: js).getLast? with
          | none =>
            rw [List.getLast?_eq_none_iff] at hgl
            exact absurd hgl (List.cons_ne_nil j js)
          | some k => rfl
    · rw [if_neg hq, if_neg (fun hh => hq hh.1)]
      exact ih out hin

/-- No breach target coincides with the pit cell itself: each first-order
offset pair is nonzero. -/
theorem breachTarget_ne_pit (r c : Int) :
    ∀ i ∈ List.range 16, breachTarget r c i ≠ (r, c) := by
  intro i hi heq
  have h1 : r + dy (breachcell i) = r := congrArg Prod.fst heq
  have h2 : c + dx (breachcell i) = c := congrArg Prod.snd heq
  have h3 : dy (breachcell i) = 0 := by omega
  have h4 : dx (breachcell i) = 0 := by omega
  have h5 : ∀ j ∈ List.range 16, ¬(dy (breachcell j) = 0 ∧ dx (breachcell j) = 0) := by
    decide
  exact h5 i hi ⟨h3, h4⟩

/-! Claim theorems for the pit tool. -/

/-- C6: a cell with valid elevation is classified as a pit exactly when no
in-bounds, non-nodata first-order neighbour has strictly lower elevation;
out-of-bounds and nodata neighbour reads are excluded from the comparison. -/
theorem c6_pit_characterization (g : Grid Rat) (r c : Int)
    (_h : g.get r c ≠ g.nodata) :
    isPit g r c ↔ ∀ i ∈ List.range 8,
      (g.inB (r + dy i) (c + dx i) ∧ g.get (r + dy i) (c + dx i) ≠ g.nodata) →
        g.get r c ≤ g.get (r + dy i) (c + dx i) := by
  unfold isPit
  constructor
  · intro hp i hi ⟨hin, hnd⟩
    have hni := hp i hi
    exact not_lt.mp fun hlt => hni ⟨hlt, hnd⟩
  · intro hs i hi ⟨hlt, hnd⟩
    by_cases hin : g.inB (r + dy i) (c + dx i)
    · exact absurd hlt (not_lt.mpr (hs i hi ⟨hin, hnd⟩))
    · exact hnd (Grid.get_of_not_inB _ _ _ hin)

/-- C6 witness: in `gC6` the corner cell (0,0) has valid elevation and the
characterization holds there; its in-bounds neighbours are all higher, so it
is a pit. -/
theorem c6_witness :
    (gC6.get 0 0 ≠ gC6.nodata) ∧
    ((isPit gC6 0 0 ↔ ∀ i ∈ List.range 8,
      (gC6.inB (0 + dy i) (0 + dx i) ∧ gC6.get (0 + dy i) (0 + dx i) ≠ gC6.nodata) →
        gC6.get 0 0 ≤ gC6.get (0 + dy i) (0 + dx i)) ∧ isPit gC6 0 0) :=
  ⟨by decide, c6_pit_characterization gC6 0 0 (by decide), by decide⟩

unseal Rat.add Rat.mul Rat.inv in
/-- C1 counterexample: in `gC1` the centre cell (2,2) is a pit with valid
elevation, yet its single repair mutates two different first-order
neighbours, (1,3) and (2,3) (both lowered from 10 to 1/2), because the ring
scan has no break: the claim that at most one first-order neighbour is
written per pit is false. -/
theorem c1_counterexample :
    gC1.get 2 2 ≠ gC1.nodata ∧ isPit gC1 2 2 ∧
    breachTarget 2 2 0 = (1, 3) ∧ breachTarget 2 2 2 = (2, 3) ∧
    qualifies gC1 2 2 0 ∧ qualifies gC1 2 2 2 ∧
    (breachStep gC1 2 2 gC1).get 1 3 = 1/2 ∧ gC1.get 1 3 = 10 ∧
    (breachStep gC1 2 2 gC1).get 2 3 = 1/2 ∧ gC1.get 2 3 = 10 ∧
    ((1 : Int), (3 : Int)) ≠ ((2 : Int), (3 : Int)) := by decide

/-- C1 (amended): for a pit cell, every qualifying ring position writes the
corresponding first-order neighbour (so several neighbours can be mutated on
one pit's behalf); the value left at a cell is the midpoint for the *last*
qualifying ring position targeting it, and the value elsewhere is untouched;
the pit cell itself is never a breach target of its own repair. -/
theorem c1_amended (g : Grid Rat) (r c : Int) (out : Grid Rat) (a b : Int)
    (hz : g.get r c ≠ g.nodata) (hpit : isPit g r c) (hin : out.inB a b) :
    ((breachStep g r c out).get a b =
      match ((List.range 16).filter fun i =>
          decide (qualifies g r c i ∧ breachTarget r c i = (a, b))).getLast? with
      | some i => (g.get r c + ringVal g r c i) / 2
      | none => out.get a b) ∧
    (∀ i ∈ List.range 16, breachTarget r c i ≠ (r, c)) := by
  refine ⟨?_, breachTarget_ne_pit r c⟩
  unfold breachStep
  rw [if_pos ⟨hz, hpit⟩]
  exact breachFold_get g r c a b (List.range 16) out hin

/-- C1 witness: the amended characterization instantiated on `gC1` at the
neighbour (2,3): the last qualifying ring position targeting it is position
2, so the cell holds (1 + 0) / 2. -/
theorem c1_witness :
    (gC1.get 2 2 ≠ gC1.nodata ∧ isPit gC1 2 2 ∧ gC1.inB 2 3) ∧
    (((breachStep gC1 2 2 gC1).get 2 3 =
      match ((List.range 16).filter fun i =>
          decide (qualifies gC1 2 2 i ∧ breachTarget 2 2 i = (2, 3))).getLast? with
      | some i => (gC1.get 2 2 + ringVal gC1 2 2 i) / 2
      | none => gC1.get 2 3) ∧
    (∀ i ∈ List.range 16, breachTarget 2 2 i ≠ (2, 2))) :=
  ⟨⟨by decide, by decide, by decide⟩,
    c1_amended gC1 2 2 gC1 2 3 (by decide) (by decide) (by decide)⟩

unseal Rat.add Rat.mul Rat.inv in
/-- C5 counterexample: on the 5x5 plateau input the scan changes far more
than the one first-order neighbour of the centre: for example cell (1,1)
(which is not the claimed unique cell (1,2)) is lowered from 10 to 5,
because plateau cells with no strictly lower neighbour are also pits and are
repaired toward the two low cells. -/
theorem c5_counterexample :
    (wholeBreach g5).get 1 1 = 5 ∧ g5.get 1 1 = 10 ∧
    ((1 : Int), (1 : Int)) ≠ ((1 : Int), (2 : Int)) ∧
    (wholeBreach g5).get 1 2 = 1/2 := by decide

unseal Rat.add Rat.mul Rat.inv in
/-- C5 (amended): on the 5x5 plateau input, the first-order neighbour of the
centre on the bearing toward the value-0 cell is indeed set to 1/2, but in
addition every plateau cell lacking a strictly lower neighbour is a pit, so
nine further cells are lowered; the full output is `g5out` and all remaining
cells keep their input values. -/
theorem c5_amended :
    ((cellList g5.rows g5.cols).all fun p =>
      decide ((wholeBreach g5).get p.1 p.2 = g5out.get p.1 p.2)) = true ∧
    (wholeBreach g5).get 1 2 = 1/2 := by decide

/-- C7: the output of the scan equals the input at every cell that is not a
lowering target of any pit; in particular a pit with no qualifying ring cell
contributes no write at all. -/
theorem c7_frame (g : Grid Rat) (a b : Int) (h : ¬ isTarget g a b) :
    (wholeBreach g).get a b = g.get a b := by
  unfold wholeBreach
  have key : ∀ L : List (Int × Int), (∀ p ∈ L, p ∈ cellList g.rows g.cols) →
      ∀ out : Grid Rat,
      (L.foldl (fun out p => breachStep g p.1 p.2 out) out).get a b = out.get a b := by
    intro L
    induction L with
    | nil => intro _ out; rfl
    | cons p ps ih =>
      intro hmem out
      rw [List.foldl_cons, ih fun q hq => hmem q (List.mem_cons_of_mem p hq)]
      unfold breachStep
      by_cases hcond : g.get p.1 p.2 ≠ g.nodata ∧ isPit g p.1 p.2
      · rw [if_pos hcond]
        apply breachFold_get_of_none
        intro i hi ⟨hqual, htgt⟩
        exact h ⟨p, hmem p (List.mem_cons_self p ps), hcond.1, hcond.2,
          i, hi, hqual, htgt⟩
      · rw [if_neg hcond]
  exact key (cellList g.rows g.cols) (fun p hp => hp) g

/-- C7 witness: in the one-cell flat grid the single valid cell is a pit with
no qualifying ring cell, so nothing is a target and the output equals the
input everywhere. -/
theorem c7_witness :
    (¬ isTarget gFlat1 0 0 ∧ isPit gFlat1 0 0) ∧
    (wholeBreach gFlat1).get 0 0 = gFlat1.get 0 0 :=
  ⟨⟨by decide, by decide⟩, c7_frame gFlat1 0 0 (by decide)⟩

/-! Claim theorems for the pointer decode. -/

/-- Truncated codes of positive values at most 128 stay within the table. -/
theorem castUsize_le_of_le (z : Rat) (h : z ≤ 128) : castUsize z ≤ 128 := by
  unfold castUsize
  have h129 : ¬((129 : Int) ≤ Rat.floor z) := by
    rw [Rat.le_floor]
    intro hc
    have : (129 : Rat) ≤ 128 := le_trans hc h
    norm_num at this
  omega

/-- Every table entry is a neighbour-offset index between 0 and 7. -/
theorem pntr_matches_range (n : Nat) :
    0 ≤ pntr_matches n ∧ pntr_matches n ≤ 7 := by
  unfold pntr_matches
  split_ifs <;> norm_num

/-- C2 counterexample: the backlink code 3 is not nodata and is not one of
the 8 valid direction codes, yet it decodes to the neighbour-offset entry 0
(a valid offset), not to the "undefined" terminus -1. -/
theorem c2_counterexample :
    (3 : Rat) ≠ (-999 : Rat) ∧
    (3 : Rat) ∉ ([1, 2, 4, 8, 16, 32, 64, 128] : List Rat) ∧
    pntrDecode (-999) 3 = some 0 ∧ some (0 : Int) ≠ some (-1 : Int) := by decide

/-- C2 (amended): a non-nodata code is decoded to "undefined" exactly when
it is non-positive; a positive invalid code truncating to at most 128
decodes to a table entry, which is always a valid neighbour-offset index
0..7 (never "undefined"); and a positive code truncating beyond 128 aborts
with the out-of-bounds error instead. -/
theorem c2_amended (pn z : Rat) (hne : z ≠ pn) :
    (z ≤ 0 → pntrDecode pn z = some (-1)) ∧
    (0 < z → castUsize z ≤ 128 →
      pntrDecode pn z = some (pntr_matches (castUsize z)) ∧
      0 ≤ pntr_matches (castUsize z) ∧ pntr_matches (castUsize z) ≤ 7) ∧
    (0 < z → 128 < castUsize z → pntrDecode pn z = none) := by
  refine ⟨?_, ?_, ?_⟩
  · intro hz
    unfold pntrDecode
    rw [if_neg hne, if_neg (not_lt.mpr hz)]
  · intro hz hle
    unfold pntrDecode pntrLookup
    rw [if_neg hne, if_pos hz, if_pos hle]
    exact ⟨rfl, pntr_matches_range (castUsize z)⟩
  · intro hz hgt
    unfold pntrDecode pntrLookup
    rw [if_neg hne, if_pos hz, if_neg (not_le.mpr hgt)]

/-- C2 witness: the amended decode behaviour at the invalid positive code 3
with pointer nodata -999. -/
theorem c2_witness :
    ((3 : Rat) ≠ -999 ∧ (0 : Rat) < 3 ∧ castUsize 3 ≤ 128) ∧
    (pntrDecode (-999) 3 = some (pntr_matches (castUsize 3)) ∧
      0 ≤ pntr_matches (castUsize 3) ∧ pntr_matches (castUsize 3) ≤ 7) :=
  ⟨⟨by decide, by decide, by decide⟩,
    ((c2_amended (-999) 3 (by decide)).2.1 (by decide) (by decide))⟩

unseal Rat.mul Rat.inv in
/-- C10 counterexample: the backlink value 5/2 lies in (0, 128], is not a
power of two, and decodes to table entry 1 (the entry of its truncation 2),
not to entry 0 as the claim's parenthetical states. -/
theorem c10_counterexample :
    (0 : Rat) < 5/2 ∧ (5/2 : Rat) ≤ 128 ∧ (5/2 : Rat) ≠ (-999 : Rat) ∧
    (5/2 : Rat) ∉ ([1, 2, 4, 8, 16, 32, 64, 128] : List Rat) ∧
    pntrDecode (-999) (5/2) = some 1 ∧ some (1 : Int) ≠ some (0 : Int) := by
  decide

/-- C10 (amended): the lookup index is the truncation of the code, so the
lookup is total on every positive code at most 128; such a code decodes to
entry 0 whenever its *truncation* is not one of the 8 powers of two (a
fractional code truncating to a power of two decodes to that power's entry);
and the error branch is reachable: code 129 indexes past the table. -/
theorem c10_amended (pn z : Rat) (hne : z ≠ pn) (hpos : 0 < z) :
    (z ≤ 128 → pntrLookup z = some (pntr_matches (castUsize z)) ∧
      pntrDecode pn z = some (pntr_matches (castUsize z))) ∧
    (z ≤ 128 → castUsize z ∉ ([1, 2, 4, 8, 16, 32, 64, 128] : List Nat) →
      pntrDecode pn z = some 0) ∧
    ((129 : Rat) ≠ pn → pntrDecode pn 129 = none) := by
  refine ⟨?_, ?_, ?_⟩
  · intro hle
    have hc := castUsize_le_of_le z hle
    constructor
    · unfold pntrLookup
      rw [if_pos hc]
    · unfold pntrDecode pntrLookup
      rw [if_neg hne, if_pos hpos, if_pos hc]
  · intro hle hmem
    have hc := castUsize_le_of_le z hle
    unfold pntrDecode pntrLookup
    rw [if_neg hne, if_pos hpos, if_pos hc]
    have hz : pntr_matches (castUsize z) = 0 := by
      unfold pntr_matches
      split_ifs with h1 h2 h3 h4 h5 h6 h7 h8 <;>
        first
        | rfl
        | (exfalso; apply hmem; simp_all)
    rw [hz]
  · intro hne129
    unfold pntrDecode pntrLookup
    rw [if_neg hne129, if_pos (by norm_num : (0 : Rat) < 129),
      if_neg (by decide : ¬ castUsize 129 ≤ 128)]

/-- C10 witness: the amended behaviour at the integer code 3 (truncation 3,
not a power of two, decoding to entry 0) with pointer nodata -999. -/
theorem c10_witness :
    ((3 : Rat) ≠ -999 ∧ (0 : Rat) < 3 ∧ (3 : Rat) ≤ 128 ∧
      castUsize 3 ∉ ([1, 2, 4, 8, 16, 32, 64, 128] : List Nat)) ∧
    (pntrDecode (-999) 3 = some 0 ∧ pntrDecode (-999) 129 = none) :=
  ⟨⟨by decide, by decide, by decide, by decide⟩,
    ⟨(c10_amended (-999) 3 (by decide) (by decide)).2.1 (by decide) (by decide),
      (c10_amended (-999) 3 (by decide) (by decide)).2.2 (by decide)⟩⟩

/-! Lemmas about the propagation walks. -/

/-- The `low_value` literal is exactly `f64::MIN`. -/
theorem low_value_eq_pow : low_value = -(2 ^ 1024 - 2 ^ 971) := by
  norm_num [low_value]

theorem low_value_neg : low_value < 0 := by norm_num [low_value]

/-- Grid extents and the nodata sentinel survive a compression walk. -/
theorem compression_meta (fd : Grid Int) (outlet : Rat) :
    ∀ fuel (out out' : Grid Rat) (y x : Int),
      compression fd outlet fuel out y x = some out' →
      out'.rows = out.rows ∧ out'.cols = out.cols ∧ out'.nodata = out.nodata := by
  intro fuel
  induction fuel with
  | zero =>
    intro out out' y x h
    exact absurd h (by simp [compression])
  | succ n ih =>
    intro out out' y x h
    simp only [compression] at h
    by_cases hdir : 0 ≤ fd.get y x
    · rw [if_pos hdir] at h
      by_cases hres : out.get (y + dy (fd.get y x).toNat) (x + dx (fd.get y x).toNat)
          ≠ low_value
      · rw [if_pos hres] at h
        injection h with h
        subst h
        exact ⟨rfl, rfl, rfl⟩
      · rw [if_neg hres] at h
        have h2 := ih _ _ _ _ h
        exact ⟨h2.1, h2.2.1, h2.2.2⟩
    · rw [if_neg hdir] at h
      injection h with h
      subst h
      exact ⟨rfl, rfl, rfl⟩

/-- Every cell of a compression result holds either its previous value or
the outlet. -/
theorem compression_diff (fd : Grid Int) (outlet : Rat) :
    ∀ fuel (out out' : Grid Rat) (y x : Int),
      compression fd outlet fuel out y x = some out' →
      ∀ a b, out'.get a b = out.get a b ∨ out'.get a b = outlet := by
  intro fuel
  induction fuel with
  | zero =>
    intro out out' y x h
    exact absurd h (by simp [compression])
  | succ n ih =>
    intro out out' y x h a b
    simp only [compression] at h
    by_cases hdir : 0 ≤ fd.get y x
    · rw [if_pos hdir] at h
      by_cases hres : out.get (y + dy (fd.get y x).toNat) (x + dx (fd.get y x).toNat)
          ≠ low_value
      · rw [if_pos hres] at h
        injection h with h
        subst h
        rw [Grid.get_set]
        split_ifs
        · right; rfl
        · left; rfl
      · rw [if_neg hres] at h
        rcases ih _ _ _ _ h a b with h1 | h1
        · rw [h1, Grid.get_set]
          split_ifs
          · right; rfl
          · left; rfl
        · right; exact h1
    · rw [if_neg hdir] at h
      injection h with h
      subst h
      rw [Grid.get_set]
      split_ifs
      · right; rfl
      · left; rfl

/-- A discovery walk that ends at a resolved cell records a value different
from the unresolved sentinel. -/
theorem discovery_resolved_ne_low (fd : Grid Int) (out : Grid Rat) :
    ∀ fuel (y x : Int) (v : Rat),
      discovery fd out fuel y x = some (WalkEnd.resolved v) → v ≠ low_value := by
  intro fuel
  induction fuel with
  | zero =>
    intro y x v h
    exact absurd h (by simp [discovery])
  | succ n ih =>
    intro y x v h
    simp only [discovery] at h
    by_cases hdir : 0 ≤ fd.get y x
    · rw [if_pos hdir] at h
      by_cases hres : out.get (y + dy (fd.get y x).toNat) (x + dx (fd.get y x).toNat)
          ≠ low_value
      · rw [if_pos hres] at h
        injection h with h
        injection h with h
        rw [h] at hres
        exact hres
      · rw [if_neg hres] at h
        exact ih _ _ _ h
    · rw [if_neg hdir] at h
      injection h with h
      exact absurd h (by simp)

/-- The recorded outlet of a finished discovery walk is never the unresolved
sentinel, provided the source nodata is not that sentinel. -/
theorem walkOutlet_ne_low (fd : Grid Int) (out : Grid Rat) (nd : Rat)
    (hnd : nd ≠ low_value) (fuel : Nat) (y x : Int) (w : WalkEnd)
    (h : discovery fd out fuel y x = some w) : walkOutlet nd w ≠ low_value := by
  cases w with
  | resolved v => exact discovery_resolved_ne_low fd out fuel y x v h
  | undirected => exact hnd

/-- Core invariant of the compression walk paired with its discovery walk:
a compression state that differs from the original grid `outO` only by
outlet writes at originally-unresolved cells keeps that shape; in
particular every cell that was already resolved in `outO` keeps its exact
value (the final write at the walk terminus stores the value the terminus
already had). -/
theorem compression_preserve (fd : Grid Int) (outO : Grid Rat) (nd : Rat) :
    ∀ fuel (y x : Int) (w : WalkEnd) (outC out' : Grid Rat),
      discovery fd outO fuel y x = some w →
      (∀ a b, outC.get a b = outO.get a b ∨
        (outC.get a b = walkOutlet nd w ∧ outO.get a b = low_value)) →
      outO.get y x = low_value →
      compression fd (walkOutlet nd w) fuel outC y x = some out' →
      ∀ a b, out'.get a b = outO.get a b ∨
        (out'.get a b = walkOutlet nd w ∧ outO.get a b = low_value) := by
  intro fuel
  induction fuel with
  | zero =>
    intro y x w outC out' hd
    exact absurd hd (by simp [discovery])
  | succ n ih =>
    intro y x w outC out' hd hinv hlow hc
    simp only [discovery] at hd
    simp only [compression] at hc
    by_cases hdir : 0 ≤ fd.get y x
    · rw [if_pos hdir] at hd hc
      by_cases hresO : outO.get (y + dy (fd.get y x).toNat) (x + dx (fd.get y x).toNat)
          ≠ low_value
      · -- the discovery walk ends here: w is the resolved value of the next cell
        rw [if_pos hresO] at hd
        injection hd with hd
        subst hd
        by_cases hresC : outC.get (y + dy (fd.get y x).toNat) (x + dx (fd.get y x).toNat)
            ≠ low_value
        · -- the compression walk also stops here and rewrites the terminus
          -- with the value the terminus already had in outO
          rw [if_pos hresC] at hc
          injection hc with hc
          subst hc
          intro a b
          rw [Grid.get_set]
          by_cases hab : a = y + dy (fd.get y x).toNat ∧
              b = x + dx (fd.get y x).toNat ∧
              outC.inB (y + dy (fd.get y x).toNat) (x + dx (fd.get y x).toNat)
          · rw [if_pos hab]
            left
            rw [hab.1, hab.2.1]
            rfl
          · rw [if_neg hab]
            exact hinv a b
        · -- impossible: the next cell is resolved in outO but unresolved in
          -- the compression state
          push_neg at hresC
          rcases hinv (y + dy (fd.get y x).toNat) (x + dx (fd.get y x).toNat) with h1 | h2
          · rw [hresC] at h1
            exact absurd h1.symm hresO
          · exact absurd h2.2 hresO
      · -- the discovery walk continues past the next cell
        rw [if_neg hresO] at hd
        push_neg at hresO
        by_cases hresC : outC.get (y + dy (fd.get y x).toNat) (x + dx (fd.get y x).toNat)
            ≠ low_value
        · -- the compression walk stops early at a previously written cell;
          -- the rewrite stores the outlet it already holds
          rw [if_pos hresC] at hc
          injection hc with hc
          subst hc
          intro a b
          rw [Grid.get_set]
          by_cases hab : a = y + dy (fd.get y x).toNat ∧
              b = x + dx (fd.get y x).toNat ∧
              outC.inB (y + dy (fd.get y x).toNat) (x + dx (fd.get y x).toNat)
          · rw [if_pos hab]
            right
            refine ⟨rfl, ?_⟩
            rw [hab.1, hab.2.1]
            exact hresO
          · rw [if_neg hab]
            exact hinv a b
        · -- both walks step to the next cell
          rw [if_neg hresC] at hc
          apply ih (y + dy (fd.get y x).toNat) (x + dx (fd.get y x).toNat) w
            (outC.set (y + dy (fd.get y x).toNat) (x + dx (fd.get y x).toNat)
              (walkOutlet nd w)) out' hd ?_ hresO hc
          intro a b
          rw [Grid.get_set]
          by_cases hab : a = y + dy (fd.get y x).toNat ∧
              b = x + dx (fd.get y x).toNat ∧
              outC.inB (y + dy (fd.get y x).toNat) (x + dx (fd.get y x).toNat)
          · rw [if_pos hab]
            right
            refine ⟨rfl, ?_⟩
            rw [hab.1, hab.2.1]
            exact hresO
          · rw [if_neg hab]
            exact hinv a b
    · -- undefined direction: both walks stop; the compression walk writes
      -- the outlet at the current (originally unresolved) cell
      rw [if_neg hdir] at hd hc
      injection hd with hd
      subst hd
      injection hc with hc
      subst hc
      intro a b
      rw [Grid.get_set]
      by_cases hab : a = y ∧ b = x ∧ outC.inB y x
      · rw [if_pos hab]
        right
        refine ⟨rfl, ?_⟩
        rw [hab.1, hab.2.1]
        exact hlow
      · rw [if_neg hab]
        exact hinv a b

/-- Grid extents and the nodata sentinel survive a per-cell processing. -/
theorem processCell_meta (fd : Grid Int) (nd : Rat) (fuel : Nat)
    (out out' : Grid Rat) (y x : Int)
    (h : processCell fd nd fuel out y x = some out') :
    out'.rows = out.rows ∧ out'.cols = out.cols ∧ out'.nodata = out.nodata := by
  unfold processCell at h
  by_cases hres : out.get y x ≠ low_value
  · rw [if_pos hres] at h
    injection h with h
    subst h
    exact ⟨rfl, rfl, rfl⟩
  · rw [if_neg hres] at h
    cases hd : discovery fd out fuel y x with
    | none => rw [hd] at h; exact absurd h (by simp)
    | some w =>
      rw [hd] at h
      rw [Option.some_bind] at h
      have h2 := compression_meta fd (walkOutlet nd w) fuel _ out' y x h
      exact ⟨h2.1, h2.2.1, h2.2.2⟩

/-- Per-cell processing either keeps a cell's value or replaces an
unresolved cell by a value different from the unresolved sentinel. -/
theorem processCell_preserve (fd : Grid Int) (nd : Rat) (hnd : nd ≠ low_value)
    (fuel : Nat) (out out' : Grid Rat) (y x : Int)
    (h : processCell fd nd fuel out y x = some out') :
    ∀ a b, out'.get a b = out.get a b ∨
      (out'.get a b ≠ low_value ∧ out.get a b = low_value) := by
  unfold processCell at h
  by_cases hres : out.get y x ≠ low_value
  · rw [if_pos hres] at h
    injection h with h
    subst h
    intro a b
    left
    rfl
  · rw [if_neg hres] at h
    push_neg at hres
    cases hd : discovery fd out fuel y x with
    | none => rw [hd] at h; exact absurd h (by simp)
    | some w =>
      rw [hd] at h
      rw [Option.some_bind] at h
      have hwo : walkOutlet nd w ≠ low_value :=
        walkOutlet_ne_low fd out nd hnd fuel y x w hd
      have hinv0 : ∀ a b, (out.set y x (walkOutlet nd w)).get a b = out.get a b ∨
          ((out.set y x (walkOutlet nd w)).get a b = walkOutlet nd w ∧
            out.get a b = low_value) := by
        intro a b
        rw [Grid.get_set]
        by_cases hab : a = y ∧ b = x ∧ out.inB y x
        · rw [if_pos hab]
          right
          refine ⟨rfl, ?_⟩
          rw [hab.1, hab.2.1]
          exact hres
        · rw [if_neg hab]
          left
          rfl
      have h2 := compression_preserve fd out nd fuel y x w _ out' hd hinv0 hres h
      intro a b
      rcases h2 a b with h3 | h3
      · left; exact h3
      · right
        refine ⟨?_, h3.2⟩
        rw [h3.1]
        exact hwo

/-- After a successful per-cell processing of an in-bounds cell, the cell no
longer holds the unresolved sentinel. -/
theorem processCell_start (fd : Grid Int) (nd : Rat) (hnd : nd ≠ low_value)
    (fuel : Nat) (out out' : Grid Rat) (y x : Int) (hin : out.inB y x)
    (h : processCell fd nd fuel out y x = some out') :
    out'.get y x ≠ low_value := by
  unfold processCell at h
  by_cases hres : out.get y x ≠ low_value
  · rw [if_pos hres] at h
    injection h with h
    subst h
    exact hres
  · rw [if_neg hres] at h
    cases hd : discovery fd out fuel y x with
    | none => rw [hd] at h; exact absurd h (by simp)
    | some w =>
      rw [hd] at h
      rw [Option.some_bind] at h
      have hwo : walkOutlet nd w ≠ low_value :=
        walkOutlet_ne_low fd out nd hnd fuel y x w hd
      have h2 := compression_diff fd (walkOutlet nd w) fuel _ out' y x h
      rcases h2 y x with h3 | h3
      · rw [h3, Grid.get_set_self out y x (walkOutlet nd w) hin]
        exact hwo
      · rw [h3]
        exact hwo

/-- Grid extents and the nodata sentinel survive a whole pass. -/
theorem passAux_meta (fd : Grid Int) (nd : Rat) (fuel : Nat) :
    ∀ (L : List (Int × Int)) (out out' : Grid Rat),
      passAux fd nd fuel L out = some out' →
      out'.rows = out.rows ∧ out'.cols = out.cols ∧ out'.nodata = out.nodata := by
  intro L
  induction L with
  | nil =>
    intro out out' h
    injection h with h
    subst h
    exact ⟨rfl, rfl, rfl⟩
  | cons p ps ih =>
    intro out out' h
    simp only [passAux] at h
    cases hp : processCell fd nd fuel out p.1 p.2 with
    | none => rw [hp] at h; exact absurd h (by simp)
    | some mid =>
      rw [hp] at h
      rw [Option.some_bind] at h
      have h1 := processCell_meta fd nd fuel out mid p.1 p.2 hp
      have h2 := ih mid out' h
      exact ⟨h2.1.trans h1.1, h2.2.1.trans h1.2.1, h2.2.2.trans h1.2.2⟩

/-- A whole pass either keeps a cell's value or replaces an unresolved cell
by a value different from the unresolved sentinel. -/
theorem passAux_preserve (fd : Grid Int) (nd : Rat) (hnd : nd ≠ low_value)
    (fuel : Nat) :
    ∀ (L : List (Int × Int)) (out out' : Grid Rat),
      passAux fd nd fuel L out = some out' →
      ∀ a b, out'.get a b = out.get a b ∨
        (out'.get a b ≠ low_value ∧ out.get a b = low_value) := by
  intro L
  induction L with
  | nil =>
    intro out out' h a b
    injection h with h
    subst h
    left
    rfl
  | cons p ps ih =>
    intro out out' h a b
    simp only [passAux] at h
    cases hp : processCell fd nd fuel out p.1 p.2 with
    | none => rw [hp] at h; exact absurd h (by simp)
    | some mid =>
      rw [hp] at h
      rw [Option.some_bind] at h
      have h1 := processCell_preserve fd nd hnd fuel out mid p.1 p.2 hp a b
      have h2 := ih mid out' h a b
      rcases h2 with h2 | h2
      · rcases h1 with h1 | h1
        · left; exact h2.trans h1
        · right; exact ⟨h2 ▸ h1.1, h1.2⟩
      · rcases h1 with h1 | h1
        · right; exact ⟨h2.1, h1 ▸ h2.2⟩
        · right; exact ⟨h2.1, h1.2⟩

/-- After a successful pass, every processed in-bounds cell is resolved. -/
theorem passAux_resolves (fd : Grid Int) (nd : Rat) (hnd : nd ≠ low_value)
    (fuel : Nat) :
    ∀ (L : List (Int × Int)) (out out' : Grid Rat),
      passAux fd nd fuel L out = some out' →
      (∀ p ∈ L, out.inB p.1 p.2) →
      ∀ p ∈ L, out'.get p.1 p.2 ≠ low_value := by
  intro L
  induction L with
  | nil =>
    intro out out' _ _ p hp
    exact absurd hp (List.not_mem_nil p)
  | cons q qs ih =>
    intro out out' h hin p hp
    simp only [passAux] at h
    cases hq : processCell fd nd fuel out q.1 q.2 with
    | none => rw [hq] at h; exact absurd h (by simp)
    | some mid =>
      rw [hq] at h
      rw [Option.some_bind] at h
      have hmeta := processCell_meta fd nd fuel out mid q.1 q.2 hq
      have hinmid : ∀ r ∈ qs, mid.inB r.1 r.2 := by
        intro r hr
        have := hin r (List.mem_cons_of_mem q hr)
        unfold Grid.inB at this ⊢
        rw [hmeta.1, hmeta.2.1]
        exact this
      rcases List.mem_cons.mp hp with hpq | hpqs
      · subst hpq
        have hmid : mid.get p.1 p.2 ≠ low_value :=
          processCell_start fd nd hnd fuel out mid p.1 p.2
            (hin p (List.mem_cons_self p qs)) hq
        rcases passAux_preserve fd nd hnd fuel qs mid out' h p.1 p.2 with h1 | h1
        · rw [h1]; exact hmid
        · exact h1.1
      · exact ih mid out' h hinmid p hpqs

/-- A pass over cells that are all already resolved performs no walks and
returns its input unchanged (the skip branch needs no fuel at all). -/
theorem passAux_skip (fd : Grid Int) (nd : Rat) (fuel : Nat) :
    ∀ (L : List (Int × Int)) (out : Grid Rat),
      (∀ p ∈ L, out.get p.1 p.2 ≠ low_value) →
      passAux fd nd fuel L out = some out := by
  intro L
  induction L with
  | nil => intro out _; rfl
  | cons q qs ih =>
    intro out hres
    simp only [passAux]
    have hq : processCell fd nd fuel out q.1 q.2 = some out := by
      unfold processCell
      rw [if_pos (hres q (List.mem_cons_self q qs))]
    rw [hq]
    rw [Option.some_bind]
    exact ih out fun p hp => hres p (List.mem_cons_of_mem q hp)

/-! Claim theorems for the propagation pass. -/

/-- C8: the propagation pass is idempotent on its own output: after one
successful pass (whose writes leave no cell at the unresolved sentinel), a
second pass, with any fuel whatsoever — in particular fuel 0, which cannot
take a single walk step — skips every cell and returns the grid unchanged. -/
theorem c8_idempotent (fd : Grid Int) (nd : Rat) (fuel : Nat)
    (out out1 : Grid Rat) (hnd : nd ≠ low_value)
    (h : propagationPass fd nd fuel out = some out1) (fuel2 : Nat) :
    propagationPass fd nd fuel2 out1 = some out1 := by
  unfold propagationPass at h ⊢
  have hmeta := passAux_meta fd nd fuel (cellList out.rows out.cols) out out1 h
  rw [hmeta.1, hmeta.2.1]
  apply passAux_skip
  intro p hp
  apply passAux_resolves fd nd hnd fuel (cellList out.rows out.cols) out out1 h _ p hp
  intro q hq
  have hq2 := mem_cellList.mp hq
  exact ⟨hq2.1, hq2.2.1, hq2.2.2.1, hq2.2.2.2⟩

/-- C8 witness: a first pass on the one-cell unresolved grid resolves it to
the source nodata; the second pass with fuel 0 (hence without any walk)
returns it unchanged. -/
theorem c8_witness :
    ((-32768 : Rat) ≠ low_value ∧
      propagationPass fdW8 (-32768) 1 outW8 = some outW8r) ∧
    propagationPass fdW8 (-32768) 0 outW8r = some outW8r :=
  ⟨⟨by decide, by rfl⟩,
    c8_idempotent fdW8 (-32768) 1 outW8 outW8r (by decide) (by rfl) 0⟩

/-- C3 counterexample: on the one-cell grid whose direction is undefined,
the discovery walk ends by case (b); the recorded outlet is the source
nodata -32768, but the current cell's LabelGrid value at that moment is the
unresolved sentinel `low_value`, and the two differ; the value back-filled
is -32768, not the cell's previous value. -/
theorem c3_counterexample :
    discovery fdW8 outW8 2 0 0 = some WalkEnd.undirected ∧
    walkOutlet (-32768) WalkEnd.undirected = -32768 ∧
    outW8.get 0 0 = low_value ∧
    ((-32768 : Rat) ≠ low_value) ∧
    (processCell fdW8 (-32768) 2 outW8 0 0).map (fun g => g.get 0 0) =
      some (-32768) := by decide

/-- C3 (amended): when the discovery walk for a cell ends because the
current cell's direction decodes as undefined, the recorded outlet is the
initialization of `outlet_id`, namely the source grid's nodata — not the
current cell's value — and that nodata value is what the compression walk
back-fills: every cell the per-cell processing changes is set to it. -/
theorem c3_amended (fd : Grid Int) (nd : Rat) (fuel : Nat)
    (out out' : Grid Rat) (y x : Int)
    (_hnd : nd ≠ low_value)
    (hund : discovery fd out fuel y x = some WalkEnd.undirected)
    (hproc : processCell fd nd fuel out y x = some out')
    (hin : out.inB y x) (hlow : out.get y x = low_value) :
    walkOutlet nd WalkEnd.undirected = nd ∧
    out'.get y x = nd ∧
    (∀ a b, out'.get a b ≠ out.get a b → out'.get a b = nd) := by
  unfold processCell at hproc
  rw [if_neg (fun hc => hc hlow), hund, Option.some_bind] at hproc
  refine ⟨rfl, ?_, ?_⟩
  · have h2 := compression_diff fd (walkOutlet nd WalkEnd.undirected) fuel _ out' y x hproc
    rcases h2 y x with h3 | h3
    · rw [h3, Grid.get_set_self out y x (walkOutlet nd WalkEnd.undirected) hin]
      rfl
    · rw [h3]
      rfl
  · intro a b hne
    have hinv0 : ∀ a b,
        (out.set y x (walkOutlet nd WalkEnd.undirected)).get a b = out.get a b ∨
        ((out.set y x (walkOutlet nd WalkEnd.undirected)).get a b =
            walkOutlet nd WalkEnd.undirected ∧ out.get a b = low_value) := by
      intro a b
      rw [Grid.get_set]
      by_cases hab : a = y ∧ b = x ∧ out.inB y x
      · rw [if_pos hab]
        right
        refine ⟨rfl, ?_⟩
        rw [hab.1, hab.2.1]
        exact hlow
      · rw [if_neg hab]
        left
        rfl
    have h2 := compression_preserve fd out nd fuel y x WalkEnd.undirected _ out'
      hund hinv0 hlow hproc
    rcases h2 a b with h3 | h3
    · exact absurd h3 hne
    · exact h3.1

/-- C3 witness: the amended statement instantiated on the one-cell grids. -/
theorem c3_witness :
    ((-32768 : Rat) ≠ low_value ∧
      discovery fdW8 outW8 2 0 0 = some WalkEnd.undirected ∧
      processCell fdW8 (-32768) 2 outW8 0 0 = some outC3r ∧
      outW8.inB 0 0 ∧ outW8.get 0 0 = low_value) ∧
    (walkOutlet (-32768) WalkEnd.undirected = -32768 ∧
      outC3r.get 0 0 = -32768 ∧
      (∀ a b, outC3r.get a b ≠ outW8.get a b → outC3r.get a b = -32768)) :=
  ⟨⟨by decide, by decide, by rfl, by decide, by rfl⟩,
    c3_amended fdW8 (-32768) 2 outW8 outC3r 0 0 (by decide) (by decide)
      (by rfl) (by decide) (by rfl)⟩

/-! Lemmas about the initialization pass. -/

/-- Output-grid extents and nodata survive one initialization cell. -/
theorem initCell_meta (pntr pourpts : Grid Rat) (fd : Grid Int) (out : Grid Rat)
    (r c : Int) (st' : Grid Int × Grid Rat)
    (h : initCell pntr pourpts fd out r c = some st') :
    st'.2.rows = out.rows ∧ st'.2.cols = out.cols ∧ st'.2.nodata = out.nodata := by
  unfold initCell at h
  by_cases h1 : pntr.get r c ≠ pntr.nodata
  · rw [if_pos h1] at h
    by_cases h2 : 0 < pntr.get r c
    · rw [if_pos h2] at h
      cases h3 : pntrLookup (pntr.get r c) with
      | none => rw [h3] at h; exact absurd h (by simp)
      | some d =>
        rw [h3] at h
        simp only [Option.map_map, Option.map_some'] at h
        injection h with h
        subst h
        split_ifs <;> exact ⟨rfl, rfl, rfl⟩
    · rw [if_neg h2] at h
      simp only [Option.map_some'] at h
      injection h with h
      subst h
      split_ifs <;> exact ⟨rfl, rfl, rfl⟩
  · rw [if_neg h1] at h
    simp only [Option.map_some'] at h
    injection h with h
    subst h
    split_ifs <;> exact ⟨rfl, rfl, rfl⟩

/-- One initialization cell writes the output only at its own coordinates. -/
theorem initCell_get_other (pntr pourpts : Grid Rat) (fd : Grid Int)
    (out : Grid Rat) (r c : Int) (st' : Grid Int × Grid Rat)
    (h : initCell pntr pourpts fd out r c = some st') (a b : Int)
    (hab : ¬(a = r ∧ b = c)) : st'.2.get a b = out.get a b := by
  unfold initCell at h
  by_cases h1 : pntr.get r c ≠ pntr.nodata
  · rw [if_pos h1] at h
    by_cases h2 : 0 < pntr.get r c
    · rw [if_pos h2] at h
      cases h3 : pntrLookup (pntr.get r c) with
      | none => rw [h3] at h; exact absurd h (by simp)
      | some d =>
        rw [h3] at h
        simp only [Option.map_map, Option.map_some'] at h
        injection h with h
        subst h
        split_ifs
        · exact Grid.get_set_ne out r c a b _ hab
        · rfl
    · rw [if_neg h2] at h
      simp only [Option.map_some'] at h
      injection h with h
      subst h
      split_ifs
      · exact Grid.get_set_ne out r c a b _ hab
      · rfl
  · rw [if_neg h1] at h
    simp only [Option.map_some'] at h
    injection h with h
    subst h
    split_ifs
    · exact Grid.get_set_ne (out.set r c pourpts.nodata) r c a b _ hab
        |>.trans (Grid.get_set_ne out r c a b _ hab)
    · exact Grid.get_set_ne out r c a b _ hab

/-- At a cell whose backlink value is the pointer nodata, the initialization
leaves in the output the source value when it is positive and valid, and the
source nodata otherwise. -/
theorem initCell_value_nodata (pntr pourpts : Grid Rat) (fd : Grid Int)
    (out : Grid Rat) (r c : Int) (st' : Grid Int × Grid Rat)
    (h : initCell pntr pourpts fd out r c = some st')
    (hpn : pntr.get r c = pntr.nodata) (hin : out.inB r c) :
    st'.2.get r c =
      if pourpts.get r c ≠ pourpts.nodata ∧ 0 < pourpts.get r c
      then pourpts.get r c else pourpts.nodata := by
  unfold initCell at h
  rw [if_neg (fun hc => hc hpn)] at h
  simp only [Option.map_some'] at h
  injection h with h
  subst h
  by_cases hpp : pourpts.get r c ≠ pourpts.nodata ∧ 0 < pourpts.get r c
  · rw [if_pos hpp, if_pos hpp]
    exact Grid.get_set_self (out.set r c pourpts.nodata) r c (pourpts.get r c) hin
  · rw [if_neg hpp, if_neg hpp]
    exact Grid.get_set_self out r c pourpts.nodata hin

/-- Output-grid extents and nodata survive the initialization pass. -/
theorem initAux_meta (pntr pourpts : Grid Rat) :
    ∀ (L : List (Int × Int)) (st st' : Grid Int × Grid Rat),
      initAux pntr pourpts L st = some st' →
      st'.2.rows = st.2.rows ∧ st'.2.cols = st.2.cols ∧
        st'.2.nodata = st.2.nodata := by
  intro L
  induction L with
  | nil =>
    intro st st' h
    injection h with h
    subst h
    exact ⟨rfl, rfl, rfl⟩
  | cons q qs ih =>
    intro st st' h
    simp only [initAux] at h
    cases hq : initCell pntr pourpts st.1 st.2 q.1 q.2 with
    | none => rw [hq] at h; exact absurd h (by simp)
    | some mid =>
      rw [hq] at h
      rw [Option.some_bind] at h
      have h1 := initCell_meta pntr pourpts st.1 st.2 q.1 q.2 mid hq
      have h2 := ih mid st' h
      exact ⟨h2.1.trans h1.1, h2.2.1.trans h1.2.1, h2.2.2.trans h1.2.2⟩

/-- Cells outside the processed list are untouched by the initialization. -/
theorem initAux_untouched (pntr pourpts : Grid Rat) (r c : Int) :
    ∀ (L : List (Int × Int)) (st st' : Grid Int × Grid Rat),
      initAux pntr pourpts L st = some st' → ((r, c) ∉ L) →
      st'.2.get r c = st.2.get r c := by
  intro L
  induction L with
  | nil =>
    intro st st' h _
    injection h with h
    subst h
    rfl
  | cons q qs ih =>
    intro st st' h hmem
    simp only [initAux] at h
    cases hq : initCell pntr pourpts st.1 st.2 q.1 q.2 with
    | none => rw [hq] at h; exact absurd h (by simp)
    | some mid =>
      rw [hq] at h
      rw [Option.some_bind] at h
      have hne : ¬(r = q.1 ∧ c = q.2) := by
        intro ⟨e1, e2⟩
        exact hmem (by rw [List.mem_cons]; left; rw [e1, e2])
      have h1 := initCell_get_other pntr pourpts st.1 st.2 q.1 q.2 mid hq r c hne
      have h2 := ih mid st' h (fun hc => hmem (List.mem_cons_of_mem q hc))
      exact h2.trans h1

/-- Value left by the initialization pass at a pointer-nodata cell that the
pass visits: the source value when positive and valid, the source nodata
otherwise (the source write comes after the nodata write and wins). -/
theorem initAux_value (pntr pourpts : Grid Rat) (r c : Int)
    (hpn : pntr.get r c = pntr.nodata) :
    ∀ (L : List (Int × Int)) (st st' : Grid Int × Grid Rat),
      initAux pntr pourpts L st = some st' → st.2.inB r c → ((r, c) ∈ L) →
      st'.2.get r c =
        if pourpts.get r c ≠ pourpts.nodata ∧ 0 < pourpts.get r c
        then pourpts.get r c else pourpts.nodata := by
  intro L
  induction L with
  | nil =>
    intro st st' _ _ hmem
    exact absurd hmem (List.not_mem_nil (r, c))
  | cons q qs ih =>
    intro st st' h hin hmem
    simp only [initAux] at h
    cases hq : initCell pntr pourpts st.1 st.2 q.1 q.2 with
    | none => rw [hq] at h; exact absurd h (by simp)
    | some mid =>
      rw [hq] at h
      rw [Option.some_bind] at h
      have hmeta := initCell_meta pntr pourpts st.1 st.2 q.1 q.2 mid hq
      have hinmid : mid.2.inB r c := by
        unfold Grid.inB at hin ⊢
        rw [hmeta.1, hmeta.2.1]
        exact hin
      by_cases hrc : (r, c) ∈ qs
      · exact ih mid st' h hinmid hrc
      · have hq2 : q = (r, c) := by
          rcases List.mem_cons.mp hmem with h1 | h1
          · exact h1.symm
          · exact absurd h1 hrc
        subst hq2
        have h1 := initCell_value_nodata pntr pourpts st.1 st.2 r c mid hq hpn hin
        have h2 := initAux_untouched pntr pourpts r c qs mid st' h hrc
        exact h2.trans h1

/-- C4 counterexample: on a one-cell pair where the backlink holds its
nodata sentinel and the source holds the positive label 7, the full run
outputs 7 at that cell, not the output nodata: the source write comes after
the nodata write in the initialization loop body and overwrites it. -/
theorem c4_counterexample :
    pntrC4.get 0 0 = pntrC4.nodata ∧
    (fullRun pntrC4 ppC4 1).map (fun g => g.get 0 0) = some 7 ∧
    (7 : Rat) ≠ ppC4.nodata := by decide

/-- C4 (amended): a cell at which the backlink grid holds its nodata
sentinel receives the output nodata unless the source grid holds a positive
non-nodata value there, in which case it receives that source value; the
propagation pass never rewrites either value. -/
theorem c4_amended (pntr pourpts : Grid Rat) (fuel : Nat) (out : Grid Rat)
    (r c : Int)
    (hnd : pourpts.nodata ≠ low_value)
    (hrun : fullRun pntr pourpts fuel = some out)
    (hr0 : 0 ≤ r) (hr1 : r < (pntr.rows : Int))
    (hc0 : 0 ≤ c) (hc1 : c < (pntr.cols : Int))
    (hpn : pntr.get r c = pntr.nodata) :
    out.get r c =
      if pourpts.get r c ≠ pourpts.nodata ∧ 0 < pourpts.get r c
      then pourpts.get r c else pourpts.nodata := by
  unfold fullRun at hrun
  by_cases hdim : pntr.rows = pourpts.rows ∧ pntr.cols = pourpts.cols
  · rw [if_pos hdim] at hrun
    cases hinit : initAux pntr pourpts (cellList pntr.rows pntr.cols)
        ({ rows := pntr.rows, cols := pntr.cols, nodata := -2, data := fun _ _ => -2 },
         { rows := pntr.rows, cols := pntr.cols, nodata := pourpts.nodata,
           data := fun _ _ => low_value }) with
    | none => rw [hinit] at hrun; exact absurd hrun (by simp)
    | some st =>
      rw [hinit] at hrun
      rw [Option.some_bind] at hrun
      have hmem : ((r, c) : Int × Int) ∈ cellList pntr.rows pntr.cols :=
        mem_cellList.mpr ⟨hr0, hr1, hc0, hc1⟩
      have hval := initAux_value pntr pourpts r c hpn
        (cellList pntr.rows pntr.cols) _ st hinit ⟨hr0, hr1, hc0, hc1⟩ hmem
      have hvne : st.2.get r c ≠ low_value := by
        rw [hval]
        by_cases hpp : pourpts.get r c ≠ pourpts.nodata ∧ 0 < pourpts.get r c
        · rw [if_pos hpp]
          exact ne_of_gt (lt_trans low_value_neg hpp.2)
        · rw [if_neg hpp]
          exact hnd
      rcases passAux_preserve st.1 pourpts.nodata hnd fuel
        (cellList pntr.rows pntr.cols) st.2 out hrun r c with h1 | h1
      · rw [h1]
        exact hval
      · exact absurd h1.2 hvne
  · rw [if_neg hdim] at hrun
    exact absurd hrun (by simp)

/-- C4 witness: the amended statement instantiated on the one-cell pair with
a positive source label; the cell receives 7. -/
theorem c4_witness :
    (ppC4.nodata ≠ low_value ∧ fullRun pntrC4 ppC4 1 = some outC4r ∧
      pntrC4.get 0 0 = pntrC4.nodata) ∧
    (outC4r.get 0 0 =
      if ppC4.get 0 0 ≠ ppC4.nodata ∧ 0 < ppC4.get 0 0
      then ppC4.get 0 0 else ppC4.nodata) ∧
    outC4r.get 0 0 = 7 :=
  ⟨⟨by decide, by rfl, by decide⟩,
    c4_amended pntrC4 ppC4 1 outC4r 0 0 (by decide) (by rfl)
      (by decide) (by decide) (by decide) (by decide) (by decide),
    by decide⟩

/-! Termination of the walks under the reachability precondition. -/

/-- A pointer path that stays in bounds and reaches a terminal within `n`
steps makes the discovery walk with fuel `n + 1` succeed. -/
theorem pathReaches_discovery (fd : Grid Int) (out : Grid Rat) :
    ∀ n (y x : Int), pathReachesB fd out n y x = true →
      ∃ w, discovery fd out (n + 1) y x = some w := by
  intro n
  induction n with
  | zero =>
    intro y x h
    simp only [pathReachesB, Bool.and_eq_true] at h
    obtain ⟨_, h2⟩ := h
    simp only [discovery]
    by_cases hdir : 0 ≤ fd.get y x
    · rw [if_pos hdir] at h2
      rw [decide_eq_true_eq] at h2
      rw [if_pos hdir, if_pos h2]
      exact ⟨_, rfl⟩
    · rw [if_neg hdir]
      exact ⟨WalkEnd.undirected, rfl⟩
  | succ n ih =>
    intro y x h
    simp only [pathReachesB, Bool.and_eq_true] at h
    obtain ⟨_, h2⟩ := h
    simp only [discovery]
    by_cases hdir : 0 ≤ fd.get y x
    · rw [if_pos hdir] at h2
      rw [if_pos hdir]
      by_cases hres : out.get (y + dy (fd.get y x).toNat) (x + dx (fd.get y x).toNat)
          ≠ low_value
      · rw [if_pos hres]
        exact ⟨_, rfl⟩
      · rw [if_neg hres]
        rcases Bool.or_eq_true_iff.mp h2 with h3 | h3
        · rw [decide_eq_true_eq] at h3
          exact absurd h3 hres
        · exact ih _ _ h3
    · rw [if_neg hdir]
      exact ⟨WalkEnd.undirected, rfl⟩

/-- Reachability is preserved when the label grid becomes more resolved
(cells only ever move away from the unresolved sentinel). -/
theorem pathReachesB_mono (fd : Grid Int) (out out2 : Grid Rat)
    (hrows : out2.rows = out.rows) (hcols : out2.cols = out.cols)
    (hmono : ∀ a b, out2.get a b = low_value → out.get a b = low_value) :
    ∀ n (y x : Int), pathReachesB fd out n y x = true →
      pathReachesB fd out2 n y x = true := by
  have hinB : ∀ y x : Int, out.inB y x → out2.inB y x := by
    intro y x h
    unfold Grid.inB at h ⊢
    rw [hrows, hcols]
    exact h
  intro n
  induction n with
  | zero =>
    intro y x h
    simp only [pathReachesB, Bool.and_eq_true] at h ⊢
    obtain ⟨h1, h2⟩ := h
    rw [decide_eq_true_eq] at h1
    refine ⟨by rw [decide_eq_true_eq]; exact hinB y x h1, ?_⟩
    by_cases hdir : 0 ≤ fd.get y x
    · rw [if_pos hdir] at h2 ⊢
      rw [decide_eq_true_eq] at h2 ⊢
      exact fun hc => h2 (hmono _ _ hc)
    · rw [if_neg hdir]
  | succ n ih =>
    intro y x h
    simp only [pathReachesB, Bool.and_eq_true] at h ⊢
    obtain ⟨h1, h2⟩ := h
    rw [decide_eq_true_eq] at h1
    refine ⟨by rw [decide_eq_true_eq]; exact hinB y x h1, ?_⟩
    by_cases hdir : 0 ≤ fd.get y x
    · rw [if_pos hdir] at h2 ⊢
      rcases Bool.or_eq_true_iff.mp h2 with h3 | h3
      · rw [decide_eq_true_eq] at h3
        apply Bool.or_eq_true_iff.mpr
        left
        rw [decide_eq_true_eq]
        exact fun hc => h3 (hmono _ _ hc)
      · apply Bool.or_eq_true_iff.mpr
        right
        exact ih _ _ h3
    · rw [if_neg hdir]

/-- When the discovery walk from a cell succeeds on the original grid, the
compression walk with the same fuel succeeds from any state at least as
resolved as that grid. -/
theorem compression_total (fd : Grid Int) (outlet : Rat)
    (hout : outlet ≠ low_value) :
    ∀ fuel (y x : Int) (outO outC : Grid Rat) (w : WalkEnd),
      discovery fd outO fuel y x = some w →
      (∀ a b, outC.get a b = low_value → outO.get a b = low_value) →
      ∃ out', compression fd outlet fuel outC y x = some out' := by
  intro fuel
  induction fuel with
  | zero =>
    intro y x outO outC w hd
    exact absurd hd (by simp [discovery])
  | succ n ih =>
    intro y x outO outC w hd hmono
    simp only [discovery] at hd
    simp only [compression]
    by_cases hdir : 0 ≤ fd.get y x
    · rw [if_pos hdir] at hd
      rw [if_pos hdir]
      by_cases hresC : outC.get (y + dy (fd.get y x).toNat) (x + dx (fd.get y x).toNat)
          ≠ low_value
      · rw [if_pos hresC]
        exact ⟨_, rfl⟩
      · rw [if_neg hresC]
        push_neg at hresC
        have hresO := hmono _ _ hresC
        rw [if_neg (fun hc => hc hresO)] at hd
        apply ih (y + dy (fd.get y x).toNat) (x + dx (fd.get y x).toNat) outO
          (outC.set (y + dy (fd.get y x).toNat) (x + dx (fd.get y x).toNat) outlet)
          w hd
        intro a b hab
        rw [Grid.get_set] at hab
        by_cases hcase : a = y + dy (fd.get y x).toNat ∧
            b = x + dx (fd.get y x).toNat ∧
            outC.inB (y + dy (fd.get y x).toNat) (x + dx (fd.get y x).toNat)
        · rw [if_pos hcase] at hab
          exact absurd hab hout
        · rw [if_neg hcase] at hab
          exact hmono a b hab
    · rw [if_neg hdir]
      exact ⟨_, rfl⟩

/-- Whole-pass termination: if, on the initial label grid, every unresolved
listed cell has an in-bounds pointer path reaching a terminal within `N`
steps, the pass with fuel `N + 1` succeeds from any state at least as
resolved as that grid. -/
theorem passAux_total (fd : Grid Int) (nd : Rat) (hnd : nd ≠ low_value)
    (N : Nat) (outI : Grid Rat) :
    ∀ (L : List (Int × Int)) (out : Grid Rat),
      out.rows = outI.rows → out.cols = outI.cols →
      (∀ a b, out.get a b = low_value → outI.get a b = low_value) →
      (∀ p ∈ L, outI.get p.1 p.2 = low_value →
        pathReachesB fd outI N p.1 p.2 = true) →
      ∃ out', passAux fd nd (N + 1) L out = some out' := by
  intro L
  induction L with
  | nil =>
    intro out _ _ _ _
    exact ⟨out, rfl⟩
  | cons q qs ih =>
    intro out hrows hcols hmono hreach
    simp only [passAux]
    by_cases hq : out.get q.1 q.2 ≠ low_value
    · have hskip : processCell fd nd (N + 1) out q.1 q.2 = some out := by
        unfold processCell
        rw [if_pos hq]
      rw [hskip, Option.some_bind]
      exact ih out hrows hcols hmono
        fun p hp => hreach p (List.mem_cons_of_mem q hp)
    · push_neg at hq
      have hreachI : pathReachesB fd outI N q.1 q.2 = true :=
        hreach q (List.mem_cons_self q qs) (hmono _ _ hq)
      have hreachCur : pathReachesB fd out N q.1 q.2 = true :=
        pathReachesB_mono fd outI out hrows hcols hmono N q.1 q.2 hreachI
      obtain ⟨w, hw⟩ := pathReaches_discovery fd out N q.1 q.2 hreachCur
      have hwo : walkOutlet nd w ≠ low_value :=
        walkOutlet_ne_low fd out nd hnd (N + 1) q.1 q.2 w hw
      obtain ⟨mid, hmid⟩ := compression_total fd (walkOutlet nd w) hwo (N + 1)
        q.1 q.2 out (out.set q.1 q.2 (walkOutlet nd w)) w hw
        (by
          intro a b hab
          rw [Grid.get_set] at hab
          by_cases hcase : a = q.1 ∧ b = q.2 ∧ out.inB q.1 q.2
          · rw [if_pos hcase] at hab
            exact absurd hab hwo
          · rw [if_neg hcase] at hab
            exact hab)
      have hproc : processCell fd nd (N + 1) out q.1 q.2 = some mid := by
        unfold processCell
        rw [if_neg (fun hc => hc hq), hw, Option.some_bind]
        exact hmid
      rw [hproc, Option.some_bind]
      have hmeta := processCell_meta fd nd (N + 1) out mid q.1 q.2 hproc
      apply ih mid (hmeta.1.trans hrows) (hmeta.2.1.trans hcols)
      · intro a b hab
        rcases processCell_preserve fd nd hnd (N + 1) out mid q.1 q.2 hproc a b
          with h1 | h1
        · exact hmono a b (h1 ▸ hab)
        · exact absurd hab h1.1
      · exact fun p hp => hreach p (List.mem_cons_of_mem q hp)

/-- C9: under the precondition that, from every unresolved cell, the decoded
pointer path stays in bounds and reaches within `N` steps either a resolved
cell or an undefined direction, both walks terminate for every start cell
and the whole propagation pass runs to completion with fuel `N + 1`. -/
theorem c9_termination (fd : Grid Int) (nd : Rat) (out : Grid Rat) (N : Nat)
    (hnd : nd ≠ low_value)
    (hreach : ∀ p ∈ cellList out.rows out.cols,
      out.get p.1 p.2 = low_value → pathReachesB fd out N p.1 p.2 = true) :
    ∃ out', propagationPass fd nd (N + 1) out = some out' := by
  unfold propagationPass
  exact passAux_total fd nd hnd N out (cellList out.rows out.cols) out rfl rfl
    (fun _ _ h => h) hreach

/-- C9 witness: on the 1x2 grids, cell (0,0) is unresolved and its path
steps east onto the resolved cell (0,1) in one step, so the pass with fuel 1
completes. -/
theorem c9_witness :
    (((-32768 : Rat) ≠ low_value) ∧
      (∀ p ∈ cellList outW9.rows outW9.cols,
        outW9.get p.1 p.2 = low_value → pathReachesB fdW9 outW9 0 p.1 p.2 = true)) ∧
    (∃ out', propagationPass fdW9 (-32768) 1 outW9 = some out') :=
  ⟨⟨by decide, by decide⟩,
    c9_termination fdW9 (-32768) outW9 0 (by decide) (by decide)⟩

end Wbt
